import Mathlib

/-!
Shallow embedding of the retrieval/ingestion core of the RAG repository
(src/retrieval/hybrid_search.py, src/ingestion/preprocess.py,
src/ingestion/vector_store.py, src/ingestion/pipeline.py), together with
theorems settling the specification claims about it.

Modelling conventions:
* Python floats are modelled as exact rationals. For the RRF scores that
  arise here (sums of two reciprocals `1/(c+rank)`), equality and order of
  the exact rationals coincide with the IEEE values the code compares.
* Chunk text is abstracted to a type `alpha` with decidable equality in the
  fusion code; the `get_doc_key` MD5 content hash is modelled as the content
  itself (a collision-free-hash abstraction).
* Python dicts are modelled as association lists with dict semantics:
  updating an existing key keeps its position, a new key is appended
  (CPython dicts preserve insertion order).
* `sorted(..., reverse=True)` is a stable descending sort; it is modelled by
  a stable insertion sort that keeps equal elements in input order.
-/

namespace RAGSpec

/-! ## Python-dict association lists -/

variable {α : Type} {β : Type} [DecidableEq α]

/-- Lookup in a Python-dict modelled as an association list. -/
def dictFind : List (α × β) → α → Option β
  | [], _ => none
  | (k', v) :: rest, k => if k' = k then some v else dictFind rest k

/-- `scores.get(key, 0)` on a dict with rational values. -/
def dictGetQ (d : List (α × ℚ)) (k : α) : ℚ := (dictFind d k).getD 0

/-- `d[k] = v` with Python-dict semantics: an existing key keeps its
position, a fresh key is appended at the end. -/
def dictSet : List (α × β) → α → β → List (α × β)
  | [], k, v => [(k, v)]
  | (k', v') :: rest, k, v =>
      if k' = k then (k, v) :: rest else (k', v') :: dictSet rest k v

theorem dictFind_dictSet_self (d : List (α × β)) (k : α) (v : β) :
    dictFind (dictSet d k v) k = some v := by
  induction d with
  | nil => simp [dictSet, dictFind]
  | cons p rest ih =>
      obtain ⟨k', v'⟩ := p
      by_cases h : k' = k
      · simp [dictSet, h, dictFind]
      · simp [dictSet, h, dictFind, ih]

theorem dictFind_dictSet_ne (d : List (α × β)) (k k₀ : α) (v : β) (h : k ≠ k₀) :
    dictFind (dictSet d k v) k₀ = dictFind d k₀ := by
  induction d with
  | nil => simp [dictSet, dictFind, h]
  | cons p rest ih =>
      obtain ⟨k', v'⟩ := p
      by_cases hk : k' = k
      · subst hk
        simp [dictSet, dictFind, h]
      · by_cases hk0 : k' = k₀
        · subst hk0
          simp [dictSet, hk, dictFind, Ne.symm h]
        · simp [dictSet, hk, dictFind, hk0, ih]

theorem dictSet_keys_mem (d : List (α × β)) (k : α) (v : β) (h : k ∈ d.map Prod.fst) :
    (dictSet d k v).map Prod.fst = d.map Prod.fst := by
  induction d with
  | nil => simp at h
  | cons p rest ih =>
      obtain ⟨k', v'⟩ := p
      by_cases hk : k' = k
      · simp [dictSet, hk]
      · simp only [List.map_cons, List.mem_cons] at h
        rcases h with h | h
        · exact absurd h.symm hk
        · simp [dictSet, hk, ih h]

theorem dictSet_keys_new (d : List (α × β)) (k : α) (v : β) (h : k ∉ d.map Prod.fst) :
    (dictSet d k v).map Prod.fst = d.map Prod.fst ++ [k] := by
  induction d with
  | nil => simp [dictSet]
  | cons p rest ih =>
      obtain ⟨k', v'⟩ := p
      simp only [List.map_cons, List.mem_cons] at h
      push_neg at h
      have hk : k' ≠ k := fun hh => h.1 hh.symm
      simp [dictSet, hk, ih h.2]

/-! ## Embedding of HybridSearch (src/retrieval/hybrid_search.py) -/

/-- Per-candidate fusion metadata, mirroring the dict built in
`HybridSearch._rrf_fusion` (ranks are stored 1-based, as `rank + 1` in the
source; `rrf_score` is attached only at the end, hence an `Option`). -/
structure FusionMeta where
  vectorRank : Option Nat
  vectorScore : Option ℚ
  bm25Rank : Option Nat
  srcTags : List String
  rrfScore : Option ℚ
deriving DecidableEq

/-- Result annotation: either the vector-only fallback metadata
`{"source": "vector_only", "score": score}` or full fusion metadata. -/
inductive ResultMeta where
  | vectorOnly (score : ℚ)
  | fused (m : FusionMeta)
deriving DecidableEq

/-- First loop of `_rrf_fusion`: process vector results, accumulating
`scores[key] += 1/(c + rank)` and recording lookup metadata. `rank` is the
0-based enumeration index starting at `r0`. -/
def vecLoop (c : ℚ) : Nat → List (α × ℚ) → List (α × ℚ) × List (α × FusionMeta) →
    List (α × ℚ) × List (α × FusionMeta)
  | _, [], st => st
  | rank, (doc, sim) :: rest, (scores, lookup) =>
      let key := doc
      let lookup' := dictSet lookup key
        ⟨some (rank + 1), some sim, none, ["vector"], none⟩
      let scores' := dictSet scores key (dictGetQ scores key + 1 / (c + rank))
      vecLoop c (rank + 1) rest (scores', lookup')

/-- Second loop of `_rrf_fusion`: process BM25 results. A key already seen in
the vector pass gets its metadata extended; a fresh key gets BM25-only
metadata. In both cases the score accumulates `1/(c + rank)`. -/
def bm25Loop (c : ℚ) : Nat → List α → List (α × ℚ) × List (α × FusionMeta) →
    List (α × ℚ) × List (α × FusionMeta)
  | _, [], st => st
  | rank, doc :: rest, (scores, lookup) =>
      let key := doc
      let lookup' :=
        match dictFind lookup key with
        | some m => dictSet lookup key
            { m with bm25Rank := some (rank + 1), srcTags := m.srcTags ++ ["bm25"] }
        | none => dictSet lookup key ⟨none, none, some (rank + 1), ["bm25"], none⟩
      let scores' := dictSet scores key (dictGetQ scores key + 1 / (c + rank))
      bm25Loop c (rank + 1) rest (scores', lookup')

/-- The `scores` dict after both fusion loops. -/
def rrfScores (c : ℚ) (vec : List (α × ℚ)) (bm25 : List α) : List (α × ℚ) :=
  (bm25Loop c 0 bm25 (vecLoop c 0 vec ([], []))).1

/-- The `doc_lookup` dict after both fusion loops. -/
def rrfLookup (c : ℚ) (vec : List (α × ℚ)) (bm25 : List α) : List (α × FusionMeta) :=
  (bm25Loop c 0 bm25 (vecLoop c 0 vec ([], []))).2

/-- Stable descending insertion: `x` is placed before the first element whose
score is at most `x`'s, so elements with equal score keep their original
relative order, exactly as Python's stable `sorted(..., reverse=True)`. -/
def insertDesc (x : α × ℚ) : List (α × ℚ) → List (α × ℚ)
  | [] => [x]
  | y :: ys => if y.2 ≤ x.2 then x :: y :: ys else y :: insertDesc x ys

/-- Stable descending sort by score (model of
`sorted(scores.keys(), key=scores.get, reverse=True)` paired with values). -/
def sortDesc : List (α × ℚ) → List (α × ℚ)
  | [] => []
  | x :: xs => insertDesc x (sortDesc xs)

/-- `HybridSearch._rrf_fusion`: fuse vector and BM25 result lists, sort by
fused score descending (stable), truncate to `k`, attach metadata with the
final `rrf_score`. -/
def rrfFusion (c : ℚ) (vec : List (α × ℚ)) (bm25 : List α) (k : Nat) :
    List (α × FusionMeta) :=
  let scores := rrfScores c vec bm25
  let lookup := rrfLookup c vec bm25
  ((sortDesc scores).take k).map fun p =>
    match dictFind lookup p.1 with
    | some m => (p.1, { m with rrfScore := some p.2 })
    | none => (p.1, ⟨none, none, none, [], some p.2⟩)  -- unreachable: scores ⊆ lookup

/-- `HybridSearch.search`, lines 137-154: with an empty BM25 result list the
top-`k` vector results are returned annotated `vector_only`; otherwise the
full RRF fusion runs. The two sub-search result lists are parameters (they
are produced by the external vector store and BM25 index). -/
def hybridSearch (c : ℚ) (vec : List (α × ℚ)) (bm25 : List α) (k : Nat) :
    List (α × ResultMeta) :=
  if bm25 = [] then
    (vec.take k).map fun p => (p.1, ResultMeta.vectorOnly p.2)
  else
    (rrfFusion c vec bm25 k).map fun p => (p.1, ResultMeta.fused p.2)

/-- `HybridSearch.search`, lines 125-135: the BM25 sub-search list is empty
when the index is unbuilt (`none`) or the corpus is empty; otherwise it is
`get_top_n(query, docs_map, n=k*2)`, modelled by the external function
`topN` applied to the corpus and `k * 2`. -/
def searchWithIndex (c : ℚ) (vec : List (α × ℚ)) (index : Option (List α))
    (topN : List α → Nat → List α) (k : Nat) : List (α × ResultMeta) :=
  let bm25Results :=
    match index with
    | none => []
    | some [] => []
    | some corpus => topN corpus (k * 2)
  hybridSearch c vec bm25Results k

/-! ## Score-accumulation lemmas for the fusion loops -/

theorem dictGetQ_dictSet_self (d : List (α × ℚ)) (k : α) (v : ℚ) :
    dictGetQ (dictSet d k v) k = v := by
  simp [dictGetQ, dictFind_dictSet_self]

theorem dictGetQ_dictSet_ne (d : List (α × ℚ)) (k k₀ : α) (v : ℚ) (h : k ≠ k₀) :
    dictGetQ (dictSet d k v) k₀ = dictGetQ d k₀ := by
  simp [dictGetQ, dictFind_dictSet_ne _ _ _ _ h]

theorem vecLoop_scores_not_mem (c : ℚ) (d : α) :
    ∀ (l : List (α × ℚ)) (r0 : Nat) (st : List (α × ℚ) × List (α × FusionMeta)),
    d ∉ l.map Prod.fst → dictGetQ (vecLoop c r0 l st).1 d = dictGetQ st.1 d := by
  intro l
  induction l with
  | nil => intro r0 st _; rfl
  | cons p rest ih =>
      intro r0 st h
      obtain ⟨k0, s0⟩ := p
      simp only [List.map_cons, List.mem_cons] at h
      push_neg at h
      obtain ⟨st1, st2⟩ := st
      rw [vecLoop, ih _ _ (by exact h.2)]
      exact dictGetQ_dictSet_ne _ _ _ _ (fun hh => h.1 hh.symm)

theorem vecLoop_scores_at (c : ℚ) (d : α) (sv : ℚ) (v2 : List (α × ℚ))
    (hv2 : d ∉ v2.map Prod.fst) :
    ∀ (v1 : List (α × ℚ)) (r0 : Nat) (st : List (α × ℚ) × List (α × FusionMeta)),
    d ∉ v1.map Prod.fst →
    dictGetQ (vecLoop c r0 (v1 ++ (d, sv) :: v2) st).1 d
      = dictGetQ st.1 d + 1 / (c + (r0 + v1.length : ℕ)) := by
  intro v1
  induction v1 with
  | nil =>
      intro r0 st _
      obtain ⟨st1, st2⟩ := st
      rw [List.nil_append, vecLoop, vecLoop_scores_not_mem c d v2 _ _ hv2]
      simp [dictGetQ_dictSet_self]
  | cons p rest ih =>
      intro r0 st h
      obtain ⟨k0, s0⟩ := p
      simp only [List.map_cons, List.mem_cons] at h
      push_neg at h
      obtain ⟨st1, st2⟩ := st
      rw [List.cons_append, vecLoop, ih _ _ (by exact h.2)]
      rw [dictGetQ_dictSet_ne _ _ _ _ (fun hh => h.1 hh.symm)]
      congr 2
      push_cast [List.length_cons]
      ring

theorem bm25Loop_scores_not_mem (c : ℚ) (d : α) :
    ∀ (l : List α) (r0 : Nat) (st : List (α × ℚ) × List (α × FusionMeta)),
    d ∉ l → dictGetQ (bm25Loop c r0 l st).1 d = dictGetQ st.1 d := by
  intro l
  induction l with
  | nil => intro r0 st _; rfl
  | cons k0 rest ih =>
      intro r0 st h
      simp only [List.mem_cons] at h
      push_neg at h
      obtain ⟨st1, st2⟩ := st
      rw [bm25Loop, ih _ _ (by exact h.2)]
      exact dictGetQ_dictSet_ne _ _ _ _ (fun hh => h.1 hh.symm)

theorem bm25Loop_scores_at (c : ℚ) (d : α) (b2 : List α) (hb2 : d ∉ b2) :
    ∀ (b1 : List α) (r0 : Nat) (st : List (α × ℚ) × List (α × FusionMeta)),
    d ∉ b1 →
    dictGetQ (bm25Loop c r0 (b1 ++ d :: b2) st).1 d
      = dictGetQ st.1 d + 1 / (c + (r0 + b1.length : ℕ)) := by
  intro b1
  induction b1 with
  | nil =>
      intro r0 st _
      obtain ⟨st1, st2⟩ := st
      rw [List.nil_append, bm25Loop, bm25Loop_scores_not_mem c d b2 _ _ hb2]
      simp [dictGetQ_dictSet_self]
  | cons k0 rest ih =>
      intro r0 st h
      simp only [List.mem_cons] at h
      push_neg at h
      obtain ⟨st1, st2⟩ := st
      rw [List.cons_append, bm25Loop, ih _ _ (by exact h.2)]
      rw [dictGetQ_dictSet_ne _ _ _ _ (fun hh => h.1 hh.symm)]
      congr 2
      push_cast [List.length_cons]
      ring

/-- C1: a chunk at 0-based rank `r1` in the vector result list and rank `r2`
in the BM25 result list (and nowhere else in either list) gets fused RRF
score `1/(60+r1) + 1/(60+r2)`, strictly greater than the score
`1/(60+min r1 r2)` it would get from only one sub-search at the better
rank (`c = 60`, the fixed default damping constant of `_rrf_fusion`). -/
theorem rrf_monotonicity (d : α) (sv : ℚ) (v1 v2 : List (α × ℚ)) (b1 b2 : List α)
    (r1 r2 : Nat) (hr1 : r1 = v1.length) (hr2 : r2 = b1.length)
    (hv1 : d ∉ v1.map Prod.fst) (hv2 : d ∉ v2.map Prod.fst)
    (hb1 : d ∉ b1) (hb2 : d ∉ b2) :
    dictGetQ (rrfScores 60 (v1 ++ (d, sv) :: v2) (b1 ++ d :: b2)) d
      = 1 / (60 + (r1 : ℚ)) + 1 / (60 + (r2 : ℚ)) ∧
    1 / (60 + ((min r1 r2 : ℕ) : ℚ)) < 1 / (60 + (r1 : ℚ)) + 1 / (60 + (r2 : ℚ)) := by
  subst hr1 hr2
  constructor
  · rw [rrfScores, bm25Loop_scores_at 60 d b2 hb2 b1 0 _ hb1,
      vecLoop_scores_at 60 d sv v2 hv2 v1 0 _ hv1]
    have h0 : dictGetQ ((([], []) : List (α × ℚ) × List (α × FusionMeta)).1) d = 0 := rfl
    rw [h0]
    push_cast
    ring
  · have hpos : ∀ n : Nat, (0 : ℚ) < 1 / (60 + (n : ℚ)) := by
      intro n
      apply div_pos one_pos
      have : (0 : ℚ) ≤ (n : ℚ) := Nat.cast_nonneg n
      linarith
    rcases min_cases v1.length b1.length with ⟨hmin, _⟩ | ⟨hmin, _⟩
    · rw [hmin]
      have := hpos b1.length
      linarith
    · rw [hmin]
      have := hpos v1.length
      linarith

/-- Witness for `rrf_monotonicity`: chunk `0` at vector rank 1 and BM25
rank 0 among concrete result lists. -/
theorem rrf_monotonicity_witness :
    dictGetQ (rrfScores 60 ([((1 : ℕ), (0 : ℚ))] ++ ((0 : ℕ), (1 : ℚ)) :: []) ([] ++ (0 : ℕ) :: [2])) 0
      = 1 / (60 + ((1 : ℕ) : ℚ)) + 1 / (60 + ((0 : ℕ) : ℚ)) ∧
    1 / (60 + ((min 1 0 : ℕ) : ℚ)) < 1 / (60 + ((1 : ℕ) : ℚ)) + 1 / (60 + ((0 : ℕ) : ℚ)) :=
  rrf_monotonicity 0 1 [(1, 0)] [] [] [2] 1 0 rfl rfl (by decide) (by decide)
    (by decide) (by decide)

/-! ## Key order and sort stability (claim C2) -/

/-- Insertion order of dict keys: each key of `ks` is appended on first
occurrence (CPython dict key order under repeated `d[k] = ...`). -/
def updKeys (init : List α) (ks : List α) : List α :=
  ks.foldl (fun acc k => if k ∈ acc then acc else acc ++ [k]) init

theorem vecLoop_scores_keys (c : ℚ) :
    ∀ (l : List (α × ℚ)) (r0 : Nat) (st : List (α × ℚ) × List (α × FusionMeta)),
    (vecLoop c r0 l st).1.map Prod.fst = updKeys (st.1.map Prod.fst) (l.map Prod.fst) := by
  intro l
  induction l with
  | nil => intro r0 st; rfl
  | cons p rest ih =>
      intro r0 st
      obtain ⟨k0, s0⟩ := p
      obtain ⟨st1, st2⟩ := st
      rw [vecLoop, ih]
      simp only [List.map_cons, updKeys, List.foldl_cons]
      by_cases h : k0 ∈ st1.map Prod.fst
      · rw [dictSet_keys_mem _ _ _ h, if_pos h]
      · rw [dictSet_keys_new _ _ _ h, if_neg h]

theorem bm25Loop_scores_keys (c : ℚ) :
    ∀ (l : List α) (r0 : Nat) (st : List (α × ℚ) × List (α × FusionMeta)),
    (bm25Loop c r0 l st).1.map Prod.fst = updKeys (st.1.map Prod.fst) l := by
  intro l
  induction l with
  | nil => intro r0 st; rfl
  | cons k0 rest ih =>
      intro r0 st
      obtain ⟨st1, st2⟩ := st
      rw [bm25Loop]
      simp only
      rw [ih]
      simp only [updKeys, List.foldl_cons]
      by_cases h : k0 ∈ st1.map Prod.fst
      · cases hf : dictFind st2 k0 <;>
          rw [dictSet_keys_mem _ _ _ h, if_pos h]
      · cases hf : dictFind st2 k0 <;>
          rw [dictSet_keys_new _ _ _ h, if_neg h]

theorem rrfScores_keys (c : ℚ) (vec : List (α × ℚ)) (bm25 : List α) :
    (rrfScores c vec bm25).map Prod.fst = updKeys [] (vec.map Prod.fst ++ bm25) := by
  rw [rrfScores, bm25Loop_scores_keys, vecLoop_scores_keys]
  simp [updKeys, List.foldl_append]

theorem mem_updKeys (ks : List α) :
    ∀ (init : List α) (x : α), x ∈ updKeys init ks ↔ x ∈ init ∨ x ∈ ks := by
  induction ks with
  | nil => intro init x; simp [updKeys]
  | cons k rest ih =>
      intro init x
      simp only [updKeys, List.foldl_cons]
      by_cases h : k ∈ init
      · rw [if_pos h]
        have := ih init x
        rw [updKeys] at this
        rw [this]
        constructor
        · rintro (hx | hx)
          · exact Or.inl hx
          · exact Or.inr (List.mem_cons_of_mem _ hx)
        · rintro (hx | hx)
          · exact Or.inl hx
          · rcases List.mem_cons.mp hx with hx | hx
            · exact Or.inl (hx ▸ h)
            · exact Or.inr hx
      · rw [if_neg h]
        have := ih (init ++ [k]) x
        rw [updKeys] at this
        rw [this]
        simp only [List.mem_append, List.mem_singleton, List.mem_cons]
        tauto

theorem nodup_updKeys (ks : List α) :
    ∀ (init : List α), init.Nodup → (updKeys init ks).Nodup := by
  induction ks with
  | nil => intro init h; exact h
  | cons k rest ih =>
      intro init h
      simp only [updKeys, List.foldl_cons]
      by_cases hk : k ∈ init
      · rw [if_pos hk]
        exact ih init h
      · rw [if_neg hk]
        apply ih
        simp [List.nodup_append, h, hk]

theorem mem_insertDesc (x y : α × ℚ) (l : List (α × ℚ)) :
    y ∈ insertDesc x l ↔ y = x ∨ y ∈ l := by
  induction l with
  | nil => simp [insertDesc]
  | cons z zs ih =>
      by_cases h : z.2 ≤ x.2
      · simp [insertDesc, h]
      · simp only [insertDesc, if_neg h, List.mem_cons, ih]
        tauto

theorem pairwise_insertDesc (x : α × ℚ) (l : List (α × ℚ))
    (h : l.Pairwise (fun a b => b.2 ≤ a.2)) :
    (insertDesc x l).Pairwise (fun a b => b.2 ≤ a.2) := by
  induction l with
  | nil => simp [insertDesc]
  | cons y ys ih =>
      rcases List.pairwise_cons.mp h with ⟨hy, hys⟩
      by_cases hle : y.2 ≤ x.2
      · rw [insertDesc, if_pos hle]
        refine List.pairwise_cons.mpr ⟨?_, h⟩
        intro z hz
        rcases List.mem_cons.mp hz with hz | hz
        · exact hz ▸ hle
        · exact le_trans (hy z hz) hle
      · rw [insertDesc, if_neg hle]
        refine List.pairwise_cons.mpr ⟨?_, ih hys⟩
        intro z hz
        rcases (mem_insertDesc x z ys).mp hz with hz | hz
        · exact hz ▸ le_of_not_le hle
        · exact hy z hz

theorem sortDesc_pairwise (l : List (α × ℚ)) :
    (sortDesc l).Pairwise (fun a b => b.2 ≤ a.2) := by
  induction l with
  | nil => simp [sortDesc]
  | cons x xs ih => exact pairwise_insertDesc x (sortDesc xs) ih

omit [DecidableEq α] in
theorem filter_insertDesc_eq (x : α × ℚ) (l : List (α × ℚ)) :
    (insertDesc x l).filter (fun p => p.2 = x.2)
      = x :: l.filter (fun p => p.2 = x.2) := by
  induction l with
  | nil => simp [insertDesc]
  | cons y ys ih =>
      by_cases h : y.2 ≤ x.2
      · simp [insertDesc, h]
      · have hne : ¬ (y.2 = x.2) := fun hh => h (le_of_eq hh)
        simp only [insertDesc, if_neg h]
        rw [List.filter_cons_of_neg (by simpa using hne), ih,
          List.filter_cons_of_neg (by simpa using hne)]

omit [DecidableEq α] in
theorem filter_insertDesc_ne (x : α × ℚ) (l : List (α × ℚ)) (q : ℚ) (h : x.2 ≠ q) :
    (insertDesc x l).filter (fun p => p.2 = q) = l.filter (fun p => p.2 = q) := by
  induction l with
  | nil => simp [insertDesc, h]
  | cons y ys ih =>
      by_cases hle : y.2 ≤ x.2
      · simp only [insertDesc, if_pos hle]
        rw [List.filter_cons_of_neg (by simpa using h)]
      · simp only [insertDesc, if_neg hle]
        by_cases hy : y.2 = q
        · rw [List.filter_cons_of_pos (by simpa using hy),
            List.filter_cons_of_pos (by simpa using hy), ih]
        · rw [List.filter_cons_of_neg (by simpa using hy),
            List.filter_cons_of_neg (by simpa using hy), ih]

omit [DecidableEq α] in
theorem sortDesc_filter (l : List (α × ℚ)) (q : ℚ) :
    (sortDesc l).filter (fun p => p.2 = q) = l.filter (fun p => p.2 = q) := by
  induction l with
  | nil => rfl
  | cons x xs ih =>
      by_cases h : x.2 = q
      · rw [sortDesc, ← h, filter_insertDesc_eq, h, ih,
          List.filter_cons_of_pos (by simpa using h)]
      · rw [sortDesc, filter_insertDesc_ne _ _ _ h, ih,
          List.filter_cons_of_neg (by simpa using h)]

theorem rrfFusion_scores_map (c : ℚ) (vec : List (α × ℚ)) (bm25 : List α) (k : Nat) :
    (rrfFusion c vec bm25 k).map (fun p => p.2.rrfScore.getD 0)
      = ((sortDesc (rrfScores c vec bm25)).take k).map Prod.snd := by
  rw [rrfFusion]
  simp only [List.map_map]
  apply List.map_congr_left
  intro p _
  simp only [Function.comp]
  cases dictFind (rrfLookup c vec bm25) p.1 <;> rfl

theorem rrfFusion_keys_map (c : ℚ) (vec : List (α × ℚ)) (bm25 : List α) (k : Nat) :
    (rrfFusion c vec bm25 k).map Prod.fst
      = ((sortDesc (rrfScores c vec bm25)).map Prod.fst).take k := by
  rw [rrfFusion]
  simp only [List.map_map, ← List.map_take]
  apply List.map_congr_left
  intro p _
  simp only [Function.comp]
  cases dictFind (rrfLookup c vec bm25) p.1 <;> rfl

/-- C2 (amended): the fused output is ordered by total fused score
descending; candidates with equal fused score appear in score-dict insertion
order (first occurrences of vector keys, in vector rank order, then
BM25-only keys, in BM25 rank order) — not by best sub-search rank. The
output is the `k`-prefix of that stably sorted key list, so it is fully
determined by the two input result lists. -/
theorem rrf_fusion_order (c : ℚ) (vec : List (α × ℚ)) (bm25 : List α) (k : Nat) :
    ((rrfFusion c vec bm25 k).map (fun p => p.2.rrfScore.getD 0)).Pairwise
        (fun a b => b ≤ a)
    ∧ (∀ q : ℚ, (sortDesc (rrfScores c vec bm25)).filter (fun p => p.2 = q)
        = (rrfScores c vec bm25).filter (fun p => p.2 = q))
    ∧ (rrfScores c vec bm25).map Prod.fst = updKeys [] (vec.map Prod.fst ++ bm25)
    ∧ (rrfFusion c vec bm25 k).map Prod.fst
        = ((sortDesc (rrfScores c vec bm25)).map Prod.fst).take k := by
  refine ⟨?_, sortDesc_filter _, rrfScores_keys c vec bm25, rrfFusion_keys_map c vec bm25 k⟩
  rw [rrfFusion_scores_map, List.pairwise_map]
  exact (sortDesc_pairwise (rrfScores c vec bm25)).sublist (List.take_sublist _ _)

/-- Rank sentinel for a candidate missing from a sub-search. -/
def missingRank : Nat := 1000000

/-- Best (lowest) 1-based rank of a candidate in either sub-search, from its
fusion metadata. -/
def bestRank (m : FusionMeta) : Nat :=
  min (m.vectorRank.getD missingRank) (m.bm25Rank.getD missingRank)

/-- The ordering claimed by the spec for the fused list: fused score
descending, ties by best (lowest) sub-search rank, then by vector rank. -/
def c2ClaimOrder (a b : α × FusionMeta) : Prop :=
  b.2.rrfScore.getD 0 < a.2.rrfScore.getD 0 ∨
  (a.2.rrfScore.getD 0 = b.2.rrfScore.getD 0 ∧
    (bestRank a.2 < bestRank b.2 ∨
      (bestRank a.2 = bestRank b.2 ∧
        a.2.vectorRank.getD missingRank ≤ b.2.vectorRank.getD missingRank)))

instance c2ClaimOrderDec (a b : α × FusionMeta) : Decidable (c2ClaimOrder a b) :=
  inferInstanceAs (Decidable
    (b.2.rrfScore.getD 0 < a.2.rrfScore.getD 0 ∨
      (a.2.rrfScore.getD 0 = b.2.rrfScore.getD 0 ∧
        (bestRank a.2 < bestRank b.2 ∨
          (bestRank a.2 = bestRank b.2 ∧
            a.2.vectorRank.getD missingRank ≤ b.2.vectorRank.getD missingRank)))))

/-- Vector result list for the C2 counterexample: candidate 2 at 0-based
rank 24, candidate 1 at rank 30, distinct fillers elsewhere (all with vector
similarity score 0, which the fused score ignores). -/
def c2Vec : List (ℕ × ℚ) :=
  [(100, 0), (101, 0), (102, 0), (103, 0), (104, 0), (105, 0), (106, 0), (107, 0), (108, 0), (109, 0), (110, 0), (111, 0), (112, 0), (113, 0), (114, 0), (115, 0), (116, 0), (117, 0), (118, 0), (119, 0), (120, 0), (121, 0), (122, 0), (123, 0), (2, 0), (125, 0), (126, 0), (127, 0), (128, 0), (129, 0), (1, 0)]

/-- BM25 result list for the C2 counterexample: candidate 1 at 0-based
rank 0, candidate 2 at rank 3, distinct fillers elsewhere. -/
def c2Bm25 : List ℕ :=
  [1, 201, 202, 2]

/-- C2 (counterexample): with the concrete result lists `c2Vec`/`c2Bm25`,
candidates 1 and 2 tie at fused score `1/90 + 1/60 = 1/84 + 1/63 = 1/36`,
but the output puts candidate 2 (best rank 4) before candidate 1 (best
rank 1), so the fused list is not ordered as the claim states. -/
theorem c2_counterexample :
    ¬ (rrfFusion 60 c2Vec c2Bm25 5).Pairwise c2ClaimOrder := by
  intro h
  have hout : rrfFusion 60 c2Vec c2Bm25 5 =
      [ (2, ⟨some 25, some 0, some 4, ["vector", "bm25"], some (1/36)⟩),
        (1, ⟨some 31, some 0, some 1, ["vector", "bm25"], some (1/36)⟩),
        (100, ⟨some 1, some 0, none, ["vector"], some (1/60)⟩),
        (101, ⟨some 2, some 0, none, ["vector"], some (1/61)⟩),
        (201, ⟨none, none, some 2, ["bm25"], some (1/61)⟩) ] := by
    norm_num [rrfFusion, rrfScores, rrfLookup, vecLoop, bm25Loop, dictSet,
      dictGetQ, dictFind, c2Vec, c2Bm25, sortDesc, insertDesc]
  rw [hout] at h
  have h2 := (List.pairwise_cons.mp h).1 _ (List.mem_cons_self _ _)
  simp only [c2ClaimOrder, bestRank, missingRank, Option.getD] at h2
  rcases h2 with hlt | ⟨_, hb | ⟨hbe, _⟩⟩
  · exact absurd hlt (by norm_num)
  · exact absurd hb (by norm_num)
  · exact absurd hbe (by norm_num)

/-! ## Top-k bound (claim C4) and degradation (claim C5) -/

omit [DecidableEq α] in
theorem insertDesc_length (x : α × ℚ) (l : List (α × ℚ)) :
    (insertDesc x l).length = l.length + 1 := by
  induction l with
  | nil => rfl
  | cons y ys ih =>
      by_cases h : y.2 ≤ x.2
      · simp [insertDesc, h]
      · simp [insertDesc, h, ih]

omit [DecidableEq α] in
theorem sortDesc_length (l : List (α × ℚ)) : (sortDesc l).length = l.length := by
  induction l with
  | nil => rfl
  | cons x xs ih => rw [sortDesc, insertDesc_length, ih, List.length_cons]

theorem updKeys_nil_length (l : List α) : (updKeys [] l).length = l.dedup.length := by
  have h1 : (updKeys [] l).Nodup := nodup_updKeys l [] List.nodup_nil
  have h2 : l.dedup.Nodup := l.nodup_dedup
  rw [← List.toFinset_card_of_nodup h1, ← List.toFinset_card_of_nodup h2]
  congr 1
  ext x
  simp [List.mem_toFinset, mem_updKeys, List.mem_dedup]

/-- C4: `search(q, k)` returns at most `k` results, and exactly `k` whenever
the two sub-search result lists contain at least `k` distinct chunks under
the content-derived dedup key. -/
theorem search_topk (c : ℚ) (vec : List (α × ℚ)) (bm25 : List α) (k : Nat) :
    (hybridSearch c vec bm25 k).length ≤ k ∧
    (k ≤ ((vec.map Prod.fst ++ bm25).dedup).length →
      (hybridSearch c vec bm25 k).length = k) := by
  by_cases hb : bm25 = []
  · subst hb
    constructor
    · simp [hybridSearch]
    · intro hk
      simp only [List.append_nil] at hk
      have h1 : (vec.map Prod.fst).dedup.length ≤ (vec.map Prod.fst).length :=
        (List.dedup_sublist _).length_le
      have h2 : k ≤ vec.length := by
        have := le_trans hk h1
        simpa using this
      have hgoal : hybridSearch c vec ([] : List α) k
          = (vec.take k).map (fun p => (p.1, ResultMeta.vectorOnly p.2)) := rfl
      rw [hgoal, List.length_map, List.length_take]
      omega
  · have hlen : (rrfScores c vec bm25).length
        = ((vec.map Prod.fst ++ bm25).dedup).length := by
      have h := congrArg List.length (rrfScores_keys c vec bm25)
      rw [List.length_map, updKeys_nil_length] at h
      exact h
    constructor
    · simp [hybridSearch, if_neg hb, rrfFusion]
    · intro hk
      simp only [hybridSearch, if_neg hb, rrfFusion, List.length_map,
        List.length_take, sortDesc_length, hlen]
      omega

/-- Witness for `search_topk`: three distinct chunks across the two lists,
`k = 2`. -/
theorem search_topk_witness :
    (2 : Nat) ≤ ((([((0 : ℕ), (0 : ℚ)), (1, 0)].map Prod.fst) ++ [2]).dedup).length ∧
    (hybridSearch 60 [((0 : ℕ), (0 : ℚ)), (1, 0)] [2] 2).length = 2 :=
  ⟨by decide, (search_topk 60 [((0 : ℕ), (0 : ℚ)), (1, 0)] [2] 2).2 (by decide)⟩

/-- C5: with the keyword index unbuilt (`none`) or empty, `search(q, k)`
returns the top-`k` vector results in vector rank order, each annotated
`vector_only`; the BM25 ranking function is never invoked. -/
theorem search_vector_only_degradation (c : ℚ) (vec : List (α × ℚ))
    (topN : List α → Nat → List α) (k : Nat) :
    searchWithIndex c vec none topN k
        = (vec.take k).map (fun p => (p.1, ResultMeta.vectorOnly p.2)) ∧
    searchWithIndex c vec (some []) topN k
        = (vec.take k).map (fun p => (p.1, ResultMeta.vectorOnly p.2)) := by
  constructor <;> rfl

/-! ## Embedding of HybridSearch._tokenize (claim C9) -/

/-- Lowercase ASCII letters and digits: the character class `[a-z0-9]` kept
by the tokenizer's substitution `re.sub(r"[^a-z0-9\s]", " ", text)`. -/
def isLowerAlnum (ch : Char) : Bool :=
  ('a' ≤ ch && ch ≤ 'z') || ('0' ≤ ch && ch ≤ '9')

/-- The whitespace class `\s` of Python's `re` (ASCII range). -/
def isPySpace (ch : Char) : Bool :=
  ch = ' ' || ch = '\t' || ch = '\n' || ch = '\r' || ch = '\x0b' || ch = '\x0c'

/-- One character of `re.sub(r"[^a-z0-9\s]", " ", text)`: characters outside
`[a-z0-9]` and `\s` become a space, everything else is kept. -/
def keepOrSpace (ch : Char) : Char :=
  if isLowerAlnum ch || isPySpace ch then ch else ' '

/-- One `foldr` step of whitespace splitting: a whitespace character opens a
new (possibly empty) token boundary, any other character extends the current
token. -/
def splitStep (c : Char) (acc : List (List Char)) : List (List Char) :=
  if isPySpace c then [] :: acc
  else
    match acc with
    | [] => [[c]]
    | t :: ts => (c :: t) :: ts

/-- Python `str.split()` with no argument: split on whitespace runs and drop
empty tokens. -/
def splitWs (l : List Char) : List (List Char) :=
  (l.foldr splitStep []).filter fun t => !t.isEmpty

/-- `HybridSearch._tokenize`: lowercase the text, replace every character
outside `[a-z0-9]` and whitespace by a space, split on whitespace, and keep
only tokens longer than 2 characters. Unicode lowercasing is modelled
ASCII-only (non-ASCII characters are not in `[a-z0-9\s]` either way, so they
are stripped to spaces exactly as in the source). -/
def tokenize (text : List Char) : List (List Char) :=
  (splitWs ((text.map Char.toLower).map keepOrSpace)).filter fun t => 2 < t.length

theorem splitStep_chars (l : List Char) :
    ∀ t ∈ l.foldr splitStep [], ∀ ch ∈ t, ch ∈ l ∧ isPySpace ch = false := by
  induction l with
  | nil => intro t ht; simp at ht
  | cons c rest ih =>
      intro t ht ch hch
      rw [List.foldr_cons] at ht
      by_cases hs : isPySpace c = true
      · rw [splitStep.eq_def, if_pos hs] at ht
        rcases List.mem_cons.mp ht with ht | ht
        · subst ht; simp at hch
        · obtain ⟨h1, h2⟩ := ih t ht ch hch
          exact ⟨List.mem_cons_of_mem _ h1, h2⟩
      · rw [splitStep.eq_def, if_neg hs] at ht
        rcases hprev : rest.foldr splitStep [] with _ | ⟨t0, ts⟩
        · rw [hprev] at ht
          simp only [List.mem_singleton] at ht
          subst ht
          rcases List.mem_singleton.mp hch with rfl
          exact ⟨List.mem_cons_self _ _, Bool.eq_false_iff.mpr hs⟩
        · rw [hprev] at ht
          rcases List.mem_cons.mp ht with ht | ht
          · subst ht
            rcases List.mem_cons.mp hch with rfl | hch
            · exact ⟨List.mem_cons_self _ _, Bool.eq_false_iff.mpr hs⟩
            · obtain ⟨h1, h2⟩ := ih t0 (by rw [hprev]; exact List.mem_cons_self _ _) ch hch
              exact ⟨List.mem_cons_of_mem _ h1, h2⟩
          · obtain ⟨h1, h2⟩ := ih t (by rw [hprev]; exact List.mem_cons_of_mem _ ht) ch hch
            exact ⟨List.mem_cons_of_mem _ h1, h2⟩

theorem keepOrSpace_chars (ch : Char) :
    isLowerAlnum (keepOrSpace ch) = true ∨ isPySpace (keepOrSpace ch) = true := by
  rw [keepOrSpace]
  by_cases h : (isLowerAlnum ch || isPySpace ch) = true
  · rw [if_pos h]
    rcases Bool.or_eq_true_iff.mp h with h | h
    · exact Or.inl h
    · exact Or.inr h
  · rw [if_neg h]
    exact Or.inr (by decide)

/-- C9: every token produced by `_tokenize` has length at least 3 and
consists only of lowercase ASCII letters and digits. -/
theorem tokenize_tokens (text : List Char) (t : List Char) (ht : t ∈ tokenize text) :
    3 ≤ t.length ∧ ∀ ch ∈ t, isLowerAlnum ch = true := by
  rw [tokenize] at ht
  have hmem := List.mem_filter.mp ht
  obtain ⟨hsplit, hlen⟩ := hmem
  refine ⟨by simpa using of_decide_eq_true hlen, ?_⟩
  intro ch hch
  rw [splitWs] at hsplit
  have hsplit' := (List.mem_filter.mp hsplit).1
  obtain ⟨hin, hns⟩ := splitStep_chars _ t hsplit' ch hch
  rcases List.mem_map.mp hin with ⟨ch0, _, rfl⟩
  rcases keepOrSpace_chars ch0 with h | h
  · exact h
  · rw [h] at hns
    exact absurd hns (by simp)

/-- Witness for `tokenize_tokens`: the token produced from a concrete mixed
text. -/
theorem tokenize_tokens_witness :
    (['h', 'e', 'l', 'l', 'o'] ∈ tokenize ['H', 'e', 'l', 'l', 'o', ',', ' ', 'a', '1']) ∧
    3 ≤ (['h', 'e', 'l', 'l', 'o'] : List Char).length ∧
    ∀ ch ∈ (['h', 'e', 'l', 'l', 'o'] : List Char), isLowerAlnum ch = true :=
  ⟨by decide, tokenize_tokens ['H', 'e', 'l', 'l', 'o', ',', ' ', 'a', '1']
    ['h', 'e', 'l', 'l', 'o'] (by decide)⟩

/-! ## Embedding of DomainDetector (src/ingestion/preprocess.py, claim C8) -/

/-- The `Domain` enumeration, in source definition order (which is also the
iteration order of the `scores` dict in `DomainDetector.detect`). -/
inductive Domain where
  | PROGRAMMING
  | DSA
  | SYSTEM_DESIGN
  | IOT
  | WEB_DEV
  | ML_AI
  | GEN_AI
  | DATA_SCIENCE
  | GENERAL
deriving DecidableEq, Fintype

/-- Enum members in definition order. -/
def domainOrder : List Domain :=
  [.PROGRAMMING, .DSA, .SYSTEM_DESIGN, .IOT, .WEB_DEV, .ML_AI, .GEN_AI,
   .DATA_SCIENCE, .GENERAL]

/-- The regex word class `\w` (ASCII model: letters, digits, underscore). -/
def isWordChar (ch : Char) : Bool := ch.isAlpha || ch.isDigit || ch = '_'

/-- Word-character status of the first character (an empty string counts as
non-word, which is how `\b` treats the ends of the text). -/
def headIsWord : List Char → Bool
  | [] => false
  | c :: _ => isWordChar c

/-- Whether `\b kw \b` matches at the current position: literal keyword
match plus a word/non-word transition on each side (`prevW` is the
word-character status of the character just before the position). -/
def matchAt (kw : List Char) (prevW : Bool) (l : List Char) : Bool :=
  !kw.isEmpty && l.take kw.length == kw && (prevW != headIsWord kw)
    && (headIsWord kw.reverse != headIsWord (l.drop kw.length))

/-- Fuel-indexed scanner counting non-overlapping matches of `\b kw \b`,
left to right: on a match, scanning resumes after the matched keyword (the
`re.findall` behaviour). -/
def countGo (kw : List Char) : Nat → Bool → List Char → Nat
  | 0, _, _ => 0
  | fuel + 1, prevW, l =>
      match l with
      | [] => 0
      | c :: rest =>
          if matchAt kw prevW (c :: rest) then
            1 + countGo kw fuel (headIsWord kw.reverse) ((c :: rest).drop kw.length)
          else
            countGo kw fuel (isWordChar c) rest

/-- `len(re.findall(r"\b" + kw + r"\b", text))`. -/
def countMatches (kw : List Char) (text : List Char) : Nat :=
  countGo kw (text.length + 1) false text

/-- The `DomainDetector.KEYWORDS` lexicon (the escaped regex `c\+\+` is the
literal keyword `c++`). `GENERAL` has no keywords. -/
def keywords : Domain → List String
  | .PROGRAMMING => ["python", "java", "c++", "function", "class",
      "import", "def", "return"]
  | .DSA => ["algorithm", "complexity", "big o", "tree", "graph", "sorting",
      "dfs", "bfs"]
  | .SYSTEM_DESIGN => ["scalability", "load balancer", "database", "sharding",
      "cap theorem", "microservices"]
  | .IOT => ["sensor", "arduino", "raspberry pi", "mqtt", "esp32", "gpio",
      "voltage"]
  | .WEB_DEV => ["http", "api", "rest", "react", "html", "css", "json",
      "endpoint"]
  | .ML_AI => ["neural network", "transformer", "pytorch", "training",
      "inference", "loss function"]
  | .GEN_AI => ["llm", "generative", "gpt", "bert", "diffusion", "rag",
      "prompt engineering", "hallucination"]
  | .DATA_SCIENCE => ["dataframe", "pandas", "visualization", "statistics",
      "outlier", "regression"]
  | .GENERAL => []

/-- Keyword-occurrence score of one domain on (already lowercased) text. -/
def domainScore (text : List Char) (d : Domain) : Nat :=
  ((keywords d).map fun kw => countMatches kw.toList text).sum

/-- First enum member attaining the maximal score: Python's
`max(scores, key=scores.get)` keeps the current best unless a strictly
greater score appears. -/
def bestDomain (text : List Char) : Domain :=
  domainOrder.foldl
    (fun b d => if domainScore text b < domainScore text d then d else b)
    .PROGRAMMING

/-- `DomainDetector.detect`: lowercase the text, score every domain, return
the best-scoring domain, or `GENERAL` when the best score is zero. -/
def detect (text : List Char) : Domain :=
  let lowered := text.map Char.toLower
  if 0 < domainScore lowered (bestDomain lowered) then bestDomain lowered
  else Domain.GENERAL

theorem foldl_best_bounds (f : Domain → Nat) :
    ∀ (l : List Domain) (init : Domain),
    f init ≤ f (l.foldl (fun b d => if f b < f d then d else b) init) ∧
    ∀ x ∈ l, f x ≤ f (l.foldl (fun b d => if f b < f d then d else b) init) := by
  intro l
  induction l with
  | nil => intro init; simp
  | cons y ys ih =>
      intro init
      rw [List.foldl_cons]
      by_cases h : f init < f y
      · simp only [if_pos h]
        refine ⟨le_trans (le_of_lt h) (ih y).1, ?_⟩
        intro x hx
        rcases List.mem_cons.mp hx with rfl | hx
        · exact (ih x).1
        · exact (ih y).2 x hx
      · simp only [if_neg h]
        refine ⟨(ih init).1, ?_⟩
        intro x hx
        rcases List.mem_cons.mp hx with rfl | hx
        · exact le_trans (le_of_not_lt h) (ih init).1
        · exact (ih init).2 x hx

theorem mem_domainOrder (d : Domain) : d ∈ domainOrder := by
  cases d <;> simp [domainOrder]

theorem bestDomain_ge (text : List Char) (d : Domain) :
    domainScore text d ≤ domainScore text (bestDomain text) :=
  (foldl_best_bounds (domainScore text) domainOrder .PROGRAMMING).2 d (mem_domainOrder d)

theorem domainScore_general (text : List Char) :
    domainScore text Domain.GENERAL = 0 := rfl

/-- C8: `detect` returns the domain with the strictly highest
keyword-occurrence score whenever one exists, and returns `GENERAL` exactly
when every domain scores zero on the lowercased text. -/
theorem detect_spec :
    (∀ (text : List Char) (d : Domain),
      (∀ d', d' ≠ d → domainScore (text.map Char.toLower) d'
          < domainScore (text.map Char.toLower) d) →
      detect text = d) ∧
    (∀ text : List Char, detect text = Domain.GENERAL ↔
      ∀ d : Domain, domainScore (text.map Char.toLower) d = 0) := by
  constructor
  · intro text d hmax
    by_cases hgen : d = Domain.GENERAL
    · subst hgen
      have h := hmax Domain.PROGRAMMING (by decide)
      rw [domainScore_general] at h
      exact absurd h (Nat.not_lt_zero _)
    · have hbest : bestDomain (text.map Char.toLower) = d := by
        by_contra hne
        have h1 := hmax _ hne
        have h2 := bestDomain_ge (text.map Char.toLower) d
        omega
      have hpos : 0 < domainScore (text.map Char.toLower) d := by
        have h := hmax Domain.GENERAL (fun hh => hgen hh.symm)
        rw [domainScore_general] at h
        omega
      rw [detect, hbest]
      simp only [if_pos hpos]
  · intro text
    constructor
    · intro hdet d
      by_contra hne
      have hpos : 0 < domainScore (text.map Char.toLower) d := Nat.pos_of_ne_zero hne
      have hb : 0 < domainScore (text.map Char.toLower)
          (bestDomain (text.map Char.toLower)) :=
        lt_of_lt_of_le hpos (bestDomain_ge _ d)
      rw [detect] at hdet
      simp only [if_pos hb] at hdet
      rw [hdet, domainScore_general] at hb
      exact absurd hb (Nat.not_lt_zero _)
    · intro hall
      rw [detect]
      simp only [hall, if_neg (Nat.not_lt_zero 0)]

/-- Witness for `detect_spec`: the text `python` scores 1 for `PROGRAMMING`
and 0 elsewhere, so detection returns `PROGRAMMING`. -/
theorem detect_spec_witness :
    detect ['P', 'y', 't', 'h', 'o', 'n'] = Domain.PROGRAMMING :=
  detect_spec.1 ['P', 'y', 't', 'h', 'o', 'n'] Domain.PROGRAMMING (by decide)

/-! ## Embedding of Chunker (src/ingestion/preprocess.py, claim C6) -/

/-- The per-domain `{chunk_size, chunk_overlap}` table of `Chunker.split`
(first component `chunk_size`, second `chunk_overlap`). -/
def chunkConfig : Domain → Nat × Nat
  | .PROGRAMMING => (350, 50)
  | .DSA => (600, 100)
  | .SYSTEM_DESIGN => (900, 150)
  | .IOT => (500, 100)
  | .WEB_DEV => (400, 80)
  | .ML_AI => (400, 50)
  | .GEN_AI => (450, 60)
  | .DATA_SCIENCE => (400, 50)
  | .GENERAL => (500, 100)

/-- Modelled from the spec: the span accumulation of the text splitter.
`Chunker.split` delegates the actual splitting to
`langchain_text_splitters.RecursiveCharacterTextSplitter`, whose code is not
part of this repository; spec section 4.3 describes the output as spans of
at most `chunk_size` characters, each subsequent span beginning
`chunk_overlap` characters before the end of the previous span, with only
the last span possibly shorter. `step = chunk_size - chunk_overlap` is the
distance between consecutive span starts; the fuel argument only bounds the
recursion depth. -/
def splitGo (size step : Nat) : Nat → List Char → List (List Char)
  | 0, _ => []
  | fuel + 1, l =>
      if l = [] then []
      else l.take size ::
        (if l.length ≤ size then [] else splitGo size step fuel (l.drop step))

/-- Modelled from the spec: `Chunker.split` for a document text and domain,
using the domain's configured `(chunk_size, chunk_overlap)`. -/
def chunkerSplit (text : List Char) (d : Domain) : List (List Char) :=
  splitGo (chunkConfig d).1 ((chunkConfig d).1 - (chunkConfig d).2)
    (text.length + 1) text

theorem splitGo_get? (size step : Nat) (hstep : 0 < step) :
    ∀ (fuel : Nat) (l : List Char) (i : Nat) (ci : List Char),
    l.length < fuel → (splitGo size step fuel l).get? i = some ci →
    ci = (l.drop (i * step)).take size := by
  intro fuel
  induction fuel with
  | zero => intro l i ci hl; omega
  | succ fuel ih =>
      intro l i ci hl hget
      match l with
      | [] => simp [splitGo] at hget
      | c :: rest =>
          rw [splitGo, if_neg (List.cons_ne_nil c rest)] at hget
          match i with
          | 0 =>
              simp only [List.get?_cons_zero, Option.some.injEq] at hget
              simp [← hget]
          | i + 1 =>
              simp only [List.get?_cons_succ] at hget
              by_cases hlen : (c :: rest).length ≤ size
              · rw [if_pos hlen] at hget
                simp at hget
              · rw [if_neg hlen] at hget
                have hlt : ((c :: rest).drop step).length < fuel := by
                  rw [List.length_drop]
                  simp only [List.length_cons] at hl ⊢
                  omega
                have := ih _ i ci hlt hget
                rw [this, List.drop_drop]
                congr 2
                ring

/-- C6: for every domain and document text, two consecutive chunks that are
both full-sized (neither is the boundary-truncated final chunk) share
exactly `chunk_overlap` characters: the last `chunk_overlap` characters of
chunk `i` are the first `chunk_overlap` characters of chunk `i+1`. -/
theorem chunk_overlap_spec (d : Domain) (text : List Char) (i : Nat)
    (hfull1 : ((chunkerSplit text d).getD i []).length = (chunkConfig d).1)
    (hfull2 : ((chunkerSplit text d).getD (i + 1) []).length = (chunkConfig d).1) :
    ((chunkerSplit text d).getD i []).drop ((chunkConfig d).1 - (chunkConfig d).2)
      = ((chunkerSplit text d).getD (i + 1) []).take (chunkConfig d).2 ∧
    (((chunkerSplit text d).getD i []).drop
        ((chunkConfig d).1 - (chunkConfig d).2)).length = (chunkConfig d).2 := by
  have hsize : 0 < (chunkConfig d).1 := by cases d <;> decide
  have hov : (chunkConfig d).2 ≤ (chunkConfig d).1 := by cases d <;> decide
  have hstep : 0 < (chunkConfig d).1 - (chunkConfig d).2 := by cases d <;> decide
  set size := (chunkConfig d).1 with hsz
  set overlap := (chunkConfig d).2 with hovl
  set step := size - overlap with hst
  cases h1 : (chunkerSplit text d).get? i with
  | none =>
      rw [List.getD_eq_getD_get?, h1] at hfull1
      simp at hfull1
      omega
  | some ci =>
      cases h2 : (chunkerSplit text d).get? (i + 1) with
      | none =>
          rw [List.getD_eq_getD_get?, h2] at hfull2
          simp at hfull2
          omega
      | some cj =>
          have hci : ci = (text.drop (i * step)).take size :=
            splitGo_get? size step hstep _ text i ci (Nat.lt_succ_self _) h1
          have hcj : cj = (text.drop ((i + 1) * step)).take size :=
            splitGo_get? size step hstep _ text (i + 1) cj (Nat.lt_succ_self _) h2
          rw [List.getD_eq_getD_get?, h1] at hfull1 ⊢
          rw [List.getD_eq_getD_get?, h2] at hfull2 ⊢
          simp only [Option.getD_some] at hfull1 hfull2 ⊢
          constructor
          · rw [hci, hcj, List.drop_take, List.drop_drop, List.take_take]
            have e1 : size - step = overlap := by omega
            have e2 : i * step + step = (i + 1) * step := by ring
            have e3 : min overlap size = overlap := Nat.min_eq_left hov
            rw [e1, e2, e3]
          · rw [List.length_drop, hfull1]
            omega

set_option maxRecDepth 40000 in
/-- Witness for `chunk_overlap_spec`: a 660-character text in the
`PROGRAMMING` domain (chunk size 350, overlap 50) has two full chunks. -/
theorem chunk_overlap_spec_witness :
    ((chunkerSplit (List.replicate 660 'a') .PROGRAMMING).getD 0 []).drop
        ((chunkConfig .PROGRAMMING).1 - (chunkConfig .PROGRAMMING).2)
      = ((chunkerSplit (List.replicate 660 'a') .PROGRAMMING).getD 1 []).take
          (chunkConfig .PROGRAMMING).2 ∧
    (((chunkerSplit (List.replicate 660 'a') .PROGRAMMING).getD 0 []).drop
        ((chunkConfig .PROGRAMMING).1 - (chunkConfig .PROGRAMMING).2)).length
      = (chunkConfig .PROGRAMMING).2 :=
  chunk_overlap_spec .PROGRAMMING (List.replicate 660 'a') 0 (by decide) (by decide)

/-! ## Embedding of ChromaStore (src/ingestion/vector_store.py, claim C3) -/

/-- A document as handed to the store: page content plus the `source`
metadata entry used by id generation (`doc.metadata.get("source", "")`). -/
structure StoreDoc where
  pageContent : String
  source : String
deriving DecidableEq

/-- `ChromaStore._generate_id`: SHA-256 of the composite
`f"{source}_{content}_{instant}"`, truncated to 16 hex characters. The hash
is modelled as the composite string itself (a collision-free-hash
abstraction); `instant` is the `time.time()` value at id-generation time,
passed explicitly. -/
def generateId (source content instant : String) : String :=
  source ++ "_" ++ content ++ "_" ++ instant

/-- Store contents: (id, document) pairs in insertion order. -/
def Store : Type := List (String × StoreDoc)

/-- Modelled from the spec: the ChunkStore insert capability of spec
section 4.7 behind `store.add_documents(documents=..., ids=...)` (the
physical ChromaDB engine is external to this repository). Documents are
inserted in order, and any id already present is skipped, not
overwritten. -/
def storeInsert (st : List (String × StoreDoc)) (batch : List (String × StoreDoc)) :
    List (String × StoreDoc) :=
  batch.foldl (fun acc p => if p.1 ∈ acc.map Prod.fst then acc else acc ++ [p]) st

/-- Batches of at most 100 documents (`batch_size = 100` in
`add_documents`); the fuel argument only bounds the recursion depth. -/
def toBatches : Nat → List (String × StoreDoc) → List (List (String × StoreDoc))
  | 0, _ => []
  | fuel + 1, l =>
      if l = [] then [] else l.take 100 :: toBatches fuel (l.drop 100)

/-- `ChromaStore.add_documents`: generate one id per document (all at the
same `time.time()` instant `instant`), drop documents whose id is already
stored, and insert the remainder in batches of 100. Empty input, or no new
documents, leaves the store unchanged. -/
def addDocuments (instant : String) (st : List (String × StoreDoc))
    (documents : List StoreDoc) : List (String × StoreDoc) :=
  if documents = [] then st
  else
    let pairs := documents.map fun d => (generateId d.source d.pageContent instant, d)
    let newPairs := pairs.filter fun p => p.1 ∉ st.map Prod.fst
    if newPairs = [] then st
    else (toBatches newPairs.length newPairs).foldl storeInsert st

theorem storeInsert_nodup :
    ∀ (batch st : List (String × StoreDoc)), (st.map Prod.fst).Nodup →
    ((storeInsert st batch).map Prod.fst).Nodup := by
  intro batch
  induction batch with
  | nil => intro st h; exact h
  | cons q rest ih =>
      intro st h
      rw [storeInsert, List.foldl_cons]
      by_cases hq : q.1 ∈ st.map Prod.fst
      · rw [if_pos hq]
        exact ih st h
      · rw [if_neg hq]
        apply ih
        simp [List.nodup_append, h, hq]

theorem storeInsert_append_tail :
    ∀ (batch st : List (String × StoreDoc)),
    ∃ tail, storeInsert st batch = st ++ tail := by
  intro batch
  induction batch with
  | nil => intro st; exact ⟨[], (List.append_nil st).symm⟩
  | cons q rest ih =>
      intro st
      rw [storeInsert, List.foldl_cons]
      by_cases hq : q.1 ∈ st.map Prod.fst
      · rw [if_pos hq]
        exact ih st
      · rw [if_neg hq]
        obtain ⟨t, ht⟩ := ih (st ++ [q])
        exact ⟨[q] ++ t, by rw [← List.append_assoc]; exact ht⟩

theorem storeInsert_mem_keys :
    ∀ (batch st : List (String × StoreDoc)) (id : String),
    (id ∈ st.map Prod.fst ∨ id ∈ batch.map Prod.fst) →
    id ∈ (storeInsert st batch).map Prod.fst := by
  intro batch
  induction batch with
  | nil =>
      intro st id h
      rcases h with h | h
      · exact h
      · simp at h
  | cons q rest ih =>
      intro st id h
      rw [storeInsert, List.foldl_cons]
      rw [List.map_cons] at h
      by_cases hq : q.1 ∈ st.map Prod.fst
      · rw [if_pos hq]
        apply ih
        rcases h with h | h
        · exact Or.inl h
        · rcases List.mem_cons.mp h with rfl | h
          · exact Or.inl hq
          · exact Or.inr h
      · rw [if_neg hq]
        apply ih
        rcases h with h | h
        · exact Or.inl (by simp [h])
        · rcases List.mem_cons.mp h with rfl | h
          · exact Or.inl (by simp)
          · exact Or.inr h

theorem storeInsert_append_batch (st : List (String × StoreDoc))
    (b1 b2 : List (String × StoreDoc)) :
    storeInsert st (b1 ++ b2) = storeInsert (storeInsert st b1) b2 := by
  rw [storeInsert, storeInsert, storeInsert, List.foldl_append]

theorem toBatches_flatten :
    ∀ (fuel : Nat) (l : List (String × StoreDoc)), l.length ≤ fuel →
    (toBatches fuel l).flatten = l := by
  intro fuel
  induction fuel with
  | zero =>
      intro l hl
      have : l = [] := List.length_eq_zero.mp (Nat.le_zero.mp hl)
      subst this
      rfl
  | succ fuel ih =>
      intro l hl
      by_cases h : l = []
      · subst h; simp [toBatches]
      · rw [toBatches, if_neg h, List.flatten_cons]
        rw [ih (l.drop 100) (by rw [List.length_drop]; omega)]
        exact List.take_append_drop 100 l

theorem foldl_storeInsert_batches :
    ∀ (bs : List (List (String × StoreDoc))) (st : List (String × StoreDoc)),
    bs.foldl storeInsert st = storeInsert st bs.flatten := by
  intro bs
  induction bs with
  | nil => intro st; rfl
  | cons b rest ih =>
      intro st
      rw [List.foldl_cons, List.flatten_cons, storeInsert_append_batch, ih]

theorem addDocuments_eq (instant : String)
    (st : List (String × StoreDoc)) (documents : List StoreDoc)
    (hne : documents ≠ []) :
    addDocuments instant st documents
      = if ((documents.map fun d => (generateId d.source d.pageContent instant, d)).filter
            fun p => p.1 ∉ st.map Prod.fst) = [] then st
        else storeInsert st
          ((documents.map fun d => (generateId d.source d.pageContent instant, d)).filter
            fun p => p.1 ∉ st.map Prod.fst) := by
  simp only [addDocuments, if_neg hne]
  by_cases h : ((documents.map fun d => (generateId d.source d.pageContent instant, d)).filter
      fun p => p.1 ∉ st.map Prod.fst) = []
  · rw [if_pos h, if_pos h]
  · rw [if_neg h, if_neg h, foldl_storeInsert_batches, toBatches_flatten _ _ le_rfl]

theorem addDocuments_nodup (instant : String)
    (st : List (String × StoreDoc)) (documents : List StoreDoc)
    (hnodup : (st.map Prod.fst).Nodup) :
    ((addDocuments instant st documents).map Prod.fst).Nodup := by
  by_cases hne : documents = []
  · rw [addDocuments, if_pos hne]
    exact hnodup
  · rw [addDocuments_eq instant st documents hne]
    by_cases h : ((documents.map fun d => (generateId d.source d.pageContent instant, d)).filter
        fun p => p.1 ∉ st.map Prod.fst) = []
    · rw [if_pos h]; exact hnodup
    · rw [if_neg h]; exact storeInsert_nodup _ st hnodup

/-- C3: ids already stored are skipped, never overwritten (the store grows
only by appending); any document of the batch ends up stored under its
generated id; key uniqueness is preserved by `add_documents`, so in
particular a batch containing the same `(source, content)` document twice,
with ids generated at the same instant, yields exactly one stored chunk for
that id; and uniqueness holds after any sequence of `add_documents`
calls. -/
theorem store_dedup_invariant (instant : String)
    (st : List (String × StoreDoc)) (documents : List StoreDoc) (d : StoreDoc)
    (hnodup : (st.map Prod.fst).Nodup) (hd : d ∈ documents) :
    (∃ tail, addDocuments instant st documents = st ++ tail) ∧
    generateId d.source d.pageContent instant
      ∈ (addDocuments instant st documents).map Prod.fst ∧
    ((addDocuments instant st documents).map Prod.fst).Nodup ∧
    ((addDocuments instant st documents).map Prod.fst).count
      (generateId d.source d.pageContent instant) = 1 ∧
    (∀ batches : List (String × List StoreDoc),
      ((batches.foldl (fun s b => addDocuments b.1 s b.2) st).map Prod.fst).Nodup) := by
  have hne : documents ≠ [] := fun h => by subst h; simp at hd
  have hrw := addDocuments_eq instant st documents hne
  have hp : (generateId d.source d.pageContent instant, d)
      ∈ documents.map fun d => (generateId d.source d.pageContent instant, d) :=
    List.mem_map.mpr ⟨d, hd, rfl⟩
  have hmem : generateId d.source d.pageContent instant
      ∈ (addDocuments instant st documents).map Prod.fst := by
    rw [hrw]
    by_cases h : ((documents.map fun d => (generateId d.source d.pageContent instant, d)).filter
        fun p => p.1 ∉ st.map Prod.fst) = []
    · rw [if_pos h]
      have := List.filter_eq_nil_iff.mp h _ hp
      simpa using this
    · rw [if_neg h]
      by_cases hin : generateId d.source d.pageContent instant ∈ st.map Prod.fst
      · exact storeInsert_mem_keys _ st _ (Or.inl hin)
      · apply storeInsert_mem_keys _ st _
        refine Or.inr (List.mem_map.mpr
          ⟨(generateId d.source d.pageContent instant, d), ?_, rfl⟩)
        refine List.mem_filter.mpr ⟨hp, ?_⟩
        simpa using hin
  have hnd := addDocuments_nodup instant st documents hnodup
  refine ⟨?_, hmem, hnd, List.count_eq_one_of_mem hnd hmem, ?_⟩
  · rw [hrw]
    by_cases h : ((documents.map fun d => (generateId d.source d.pageContent instant, d)).filter
        fun p => p.1 ∉ st.map Prod.fst) = []
    · rw [if_pos h]; exact ⟨[], (List.append_nil st).symm⟩
    · rw [if_neg h]; exact storeInsert_append_tail _ st
  · intro batches
    clear hrw hp hmem hnd
    induction batches generalizing st with
    | nil => exact hnodup
    | cons b rest ih =>
        rw [List.foldl_cons]
        exact ih _ (addDocuments_nodup b.1 st b.2 hnodup)

/-- Witness for `store_dedup_invariant`: a batch containing the same
document twice, inserted into the empty store. -/
theorem store_dedup_invariant_witness :
    (∃ tail, addDocuments "t0" [] [⟨"text", "a.txt"⟩, ⟨"text", "a.txt"⟩] = [] ++ tail) ∧
    generateId "a.txt" "text" "t0"
      ∈ (addDocuments "t0" [] [⟨"text", "a.txt"⟩, ⟨"text", "a.txt"⟩]).map Prod.fst ∧
    ((addDocuments "t0" [] [⟨"text", "a.txt"⟩, ⟨"text", "a.txt"⟩]).map Prod.fst).Nodup ∧
    ((addDocuments "t0" [] [⟨"text", "a.txt"⟩, ⟨"text", "a.txt"⟩]).map Prod.fst).count
      (generateId "a.txt" "text" "t0") = 1 ∧
    (∀ batches : List (String × List StoreDoc),
      ((batches.foldl (fun s b => addDocuments b.1 s b.2) []).map Prod.fst).Nodup) :=
  store_dedup_invariant "t0" [] [⟨"text", "a.txt"⟩, ⟨"text", "a.txt"⟩]
    ⟨"text", "a.txt"⟩ List.nodup_nil (by decide)

/-! ## Embedding of IngestionPipeline (src/ingestion/pipeline.py, claim C10) -/

/-- A chunk produced by the preprocessor: its page content plus whether its
metadata dict is truthy (the `c.metadata` part of the validation). -/
structure PChunk where
  content : List Char
  hasMetadata : Bool
deriving DecidableEq

deriving instance DecidableEq for Except

/-- One file as seen by the pipeline's main loop: display name, extension
(`Path(file_path).suffix.lower()`, modelled as a field), size in bytes, and
the outcome of `preprocessor.process_file` (exception message or chunk
list) — the preprocessor calls external file loaders, so its outcome is an
input of the model. -/
structure PFile where
  name : String
  ext : String
  sizeBytes : Nat
  result : Except String (List PChunk)
deriving DecidableEq

/-- `IngestionPipeline.SUPPORTED_EXTENSIONS`. -/
def supportedExtensions : List String :=
  [".pdf", ".txt", ".md", ".py", ".js", ".java", ".cpp", ".c", ".h"]

/-- `IngestionPipeline.MAX_FILE_SIZE_MB`. -/
def maxFileSizeMB : Nat := 50

/-- `IngestionPipeline._check_file_size`: `size / (1024*1024) > 50` fails
the check. Dividing by `2^20` is exact in IEEE doubles for any realistic
size, so the float comparison coincides with the integer comparison
`sizeBytes ≤ 50 * 1024 * 1024`. -/
def checkFileSize (f : PFile) : Bool := f.sizeBytes ≤ maxFileSizeMB * 1024 * 1024

/-- `IngestionPipeline._is_supported_file`. -/
def isSupportedFile (f : PFile) : Bool := f.ext ∈ supportedExtensions

/-- Chunk validation in the processing loop:
`c.metadata and len(c.page_content.strip()) > 0`. -/
def validChunk (c : PChunk) : Bool :=
  c.hasMetadata && c.content.any fun ch => !isPySpace ch

/-- The statistics dict built by `IngestionPipeline.run`. -/
structure Stats where
  totalFiles : Nat
  processedFiles : Nat
  failedFiles : Nat
  totalChunks : Nat
  success : Bool
  error : Option String
  filesProcessed : List (String × Nat)
  filesFailed : List (String × String)
deriving DecidableEq

/-- Initial statistics of `run`. -/
def initStats : Stats := ⟨0, 0, 0, 0, true, none, [], []⟩

/-- One iteration of the processing loop of `run` (lines 68-124): skip
unsupported extensions silently; record oversized files as failed without
counting them in `total_files`; then count the file and record its
processing outcome. -/
def processOne (s : Stats × List PChunk) (f : PFile) : Stats × List PChunk :=
  let stats := s.1
  let acc := s.2
  if ¬ isSupportedFile f then (stats, acc)
  else if ¬ checkFileSize f then
    ({ stats with
        failedFiles := stats.failedFiles + 1
        filesFailed := stats.filesFailed ++ [(f.name, "File too large")] }, acc)
  else
    let stats1 := { stats with totalFiles := stats.totalFiles + 1 }
    match f.result with
    | .error e =>
        ({ stats1 with
            failedFiles := stats1.failedFiles + 1
            filesFailed := stats1.filesFailed ++ [(f.name, e)] }, acc)
    | .ok chunks =>
        if chunks = [] then
          ({ stats1 with
              failedFiles := stats1.failedFiles + 1
              filesFailed := stats1.filesFailed ++ [(f.name, "No chunks produced")] }, acc)
        else
          let valid := chunks.filter validChunk
          if valid = [] then (stats1, acc)
          else
            ({ stats1 with
                processedFiles := stats1.processedFiles + 1
                filesProcessed := stats1.filesProcessed ++ [(f.name, valid.length)] },
              acc ++ valid)

/-- Result of `run`: early return on a missing folder, an `IngestionError`
raised by a storage failure, or the statistics dict. -/
inductive RunResult where
  | folderMissing
  | storageFailure (err : String)
  | done (stats : Stats)
deriving DecidableEq

/-- `IngestionPipeline.run`: process all files, then store the accumulated
chunks (`storeFails` abstracts the external ChromaDB write outcome). -/
def runPipeline (folderExists : Bool) (files : List PFile) (storeFails : Bool) :
    RunResult :=
  if !folderExists then .folderMissing
  else
    let res := files.foldl processOne (initStats, [])
    if res.2 ≠ [] then
      if storeFails then .storageFailure "Storage Phase Failed"
      else .done { res.1 with totalChunks := res.2.length }
    else .done { res.1 with
      success := false
      error := some "No valid chunks to ingest" }

/-- Oversized supported file for the C10 instance (60 MB > the 50 MB limit). -/
def c10BigFile : PFile := ⟨"big.txt", ".txt", 60 * 1024 * 1024, .ok [⟨['x'], true⟩]⟩

/-- Small file that processes into one valid chunk. -/
def c10GoodFile : PFile := ⟨"good.txt", ".txt", 10, .ok [⟨['h', 'i'], true⟩]⟩

/-- The statistics produced by running the pipeline on the two files above:
the oversized file counts as failed and recorded, but not as a total file. -/
def c10Stats : Stats := ⟨1, 1, 1, 1, true, none, [("good.txt", 1)],
  [("big.txt", "File too large")]⟩

/-- C10: a supported file failing the 50 MB size check increments
`failed_files` and is appended to `files_failed`, while `total_files` and
all other fields stay unchanged (the oversized file is never counted); on a
concrete folder with one oversized and one good file, the returned stats
have `failed_files + processed_files = 2 > 1 = total_files`. -/
theorem oversized_file_stats :
    (∀ (stats : Stats) (acc : List PChunk) (f : PFile),
      isSupportedFile f = true →
      checkFileSize f = false →
      processOne (stats, acc) f =
        ({ stats with
            failedFiles := stats.failedFiles + 1
            filesFailed := stats.filesFailed ++ [(f.name, "File too large")] }, acc)) ∧
    runPipeline true [c10BigFile, c10GoodFile] false = .done c10Stats ∧
    c10Stats.totalFiles < c10Stats.failedFiles + c10Stats.processedFiles := by
  refine ⟨?_, by decide, by decide⟩
  intro stats acc f hsup hsize
  rw [processOne]
  simp only [hsup, hsize]
  rfl

/-- Witness for `oversized_file_stats`: the oversized-file step applied at
the initial statistics. -/
theorem oversized_file_stats_witness :
    processOne (initStats, []) c10BigFile =
      ({ initStats with
          failedFiles := initStats.failedFiles + 1
          filesFailed := initStats.filesFailed
            ++ [(c10BigFile.name, "File too large")] }, []) :=
  oversized_file_stats.1 initStats [] c10BigFile (by decide) (by decide)

/-! ## Embedding of TextCleaner.clean (src/ingestion/preprocess.py, claim C7)

The three removal regexes of `clean` are deterministic enough to embed as
direct functional matchers with Python `re` semantics (leftmost scan, greedy
quantifiers with backtracking, non-overlapping `re.sub`):

* `[\w\.-]+@[\w\.-]+\.\w+` (emails),
* `\b\d{3}[-.]?\d{3}[-.]?\d{4}\b` (phone numbers),
* `https?://\S+` (URLs),

followed by `re.sub(r"\s+", " ", ...)` and `.strip()`. The `\w`, `\d`, `\s`
classes are modelled over their ASCII ranges. -/

/-- The character class `[\w\.-]` of the email regex. -/
def emailClass (ch : Char) : Bool := isWordChar ch || ch = '.' || ch = '-'

/-- ASCII digit (`\d` of the phone regex). -/
def isDigitChar (ch : Char) : Bool := '0' ≤ ch && ch ≤ '9'

/-- A phone separator (`[-.]`). -/
def isSep (ch : Char) : Bool := ch = '-' || ch = '.'

/-- The greedy backtracking choice of `[\w\.-]+\.\w+` inside the maximal
class run `r` after the `@`: the largest split point `m ≥ 1` with a literal
dot at `m` followed by a word character. -/
def findDotSplit (r : List Char) : Option Nat :=
  (List.range r.length).reverse.find? fun m =>
    decide (1 ≤ m) && (r.getD m ' ' = '.') && isWordChar (r.getD (m + 1) ' ')

/-- Length of the match of `[\w\.-]+@[\w\.-]+\.\w+` at the head of `l`
(Python `re` semantics: the class run before `@` is maximal — shrinking it
can never expose the `@` — and the tail is the greedy backtracking match,
ending with the maximal `\w+` run after the chosen dot). -/
def emailMatchLen (l : List Char) : Option Nat :=
  let a := l.takeWhile emailClass
  if a.isEmpty then none
  else
    match l.drop a.length with
    | '@' :: rest2 =>
        let r := rest2.takeWhile emailClass
        match findDotSplit r with
        | some m =>
            some (a.length + 1 + m + 1 + ((rest2.drop (m + 1)).takeWhile isWordChar).length)
        | none => none
    | _ => none

/-- `k` ASCII digits at the head, returning the remainder. -/
def takeDigits (k : Nat) (l : List Char) : Option (List Char) :=
  if (l.take k).length = k && (l.take k).all isDigitChar then some (l.drop k) else none

/-- One separator character at the head, returning the remainder. -/
def consumeSep : List Char → Option (List Char)
  | [] => none
  | c :: rest => if isSep c then some rest else none

/-- One alternative of the phone pattern `\d{3}[-.]?\d{3}[-.]?\d{4}\b`, with
the two optional separators fixed present (`true`) or absent (`false`);
returns the matched length. The trailing `\b` holds exactly when the next
character is not a word character (the last matched character is a digit). -/
def phoneTryAux (l : List Char) (s1 s2 : Bool) : Option Nat :=
  (takeDigits 3 l).bind fun l1 =>
  (if s1 then consumeSep l1 else some l1).bind fun l2 =>
  (takeDigits 3 l2).bind fun l3 =>
  (if s2 then consumeSep l3 else some l3).bind fun l4 =>
  (takeDigits 4 l4).bind fun l5 =>
  if headIsWord l5 then none else some (l.length - l5.length)

/-- Length of the match of `\b\d{3}[-.]?\d{3}[-.]?\d{4}\b` at the head of
`l`: the leading `\b` needs a non-word character before the first digit, and
greedy `?` backtracking tries the separator alternatives rightmost-first:
(yes, yes), (yes, no), (no, yes), (no, no). -/
def phoneMatchLen (prevW : Bool) (l : List Char) : Option Nat :=
  if prevW then none
  else
    match phoneTryAux l true true with
    | some n => some n
    | none =>
        match phoneTryAux l true false with
        | some n => some n
        | none =>
            match phoneTryAux l false true with
            | some n => some n
            | none => phoneTryAux l false false

/-- Literal prefix match, returning the remainder. -/
def litPrefix (pat l : List Char) : Option (List Char) :=
  if l.take pat.length = pat then some (l.drop pat.length) else none

/-- The `\S+` tail of the URL pattern: maximal nonempty run of non-space
characters; `orig` is the whole candidate so the returned value is the full
match length. -/
def urlTail (orig rest : List Char) : Option Nat :=
  let w := rest.takeWhile fun ch => !isPySpace ch
  if w.isEmpty then none else some (orig.length - rest.length + w.length)

/-- Length of the match of `https?://\S+` at the head of `l`; the greedy
`s?` tries the `s` first and backtracks to the plain `http://` form. -/
def urlMatchLen (l : List Char) : Option Nat :=
  (litPrefix ['h', 't', 't', 'p'] l).bind fun l1 =>
    match litPrefix ['s', ':', '/', '/'] l1 with
    | some l2 =>
        match urlTail l l2 with
        | some n => some n
        | none => (litPrefix [':', '/', '/'] l1).bind (urlTail l)
    | none => (litPrefix [':', '/', '/'] l1).bind (urlTail l)

/-- `re.sub(pattern, "", text)` as a scanner: at each position try the
matcher (which receives the word-character status of the previous character,
for `\b`); on a match of length `n + 1` drop the matched characters and
resume after them, otherwise emit the character. The fuel argument only
bounds the recursion depth. -/
def subAll (m : Bool → List Char → Option Nat) : Nat → Bool → List Char → List Char
  | 0, _, l => l
  | fuel + 1, prevW, l =>
      match l with
      | [] => []
      | c :: rest =>
          match m prevW (c :: rest) with
          | some 0 => c :: subAll m fuel (isWordChar c) rest
          | some (n + 1) =>
              subAll m fuel (isWordChar ((c :: rest).getD n c)) ((c :: rest).drop (n + 1))
          | none => c :: subAll m fuel (isWordChar c) rest

/-- Whether the matcher succeeds at any position of `l` (same scan contexts
as `subAll` when no match fires). -/
def anyMatch (m : Bool → List Char → Option Nat) : Bool → List Char → Bool
  | _, [] => false
  | prevW, c :: rest => (m prevW (c :: rest)).isSome || anyMatch m (isWordChar c) rest

/-- `re.sub(r"[\w\.-]+@[\w\.-]+\.\w+", "", text)`. -/
def emailSub (l : List Char) : List Char :=
  subAll (fun _ s => emailMatchLen s) (l.length + 1) false l

/-- `re.sub(r"\b\d{3}[-.]?\d{3}[-.]?\d{4}\b", "", text)`. -/
def phoneSub (l : List Char) : List Char :=
  subAll phoneMatchLen (l.length + 1) false l

/-- `re.sub(r"https?://\S+", "", text)`. -/
def urlSub (l : List Char) : List Char :=
  subAll (fun _ s => urlMatchLen s) (l.length + 1) false l

/-- An email match exists somewhere in `l`. -/
def hasEmail (l : List Char) : Bool := anyMatch (fun _ s => emailMatchLen s) false l

/-- A phone match exists somewhere in `l`. -/
def hasPhone (l : List Char) : Bool := anyMatch phoneMatchLen false l

/-- A URL match exists somewhere in `l`. -/
def hasURL (l : List Char) : Bool := anyMatch (fun _ s => urlMatchLen s) false l

/-- One `foldr` step of `re.sub(r"\s+", " ", text)`: a whitespace character
merges into the collapsed space to its right, or opens a new single
space. -/
def collapseStep (c : Char) (acc : List Char) : List Char :=
  if isPySpace c then
    if acc.head? = some ' ' then acc else ' ' :: acc
  else c :: acc

/-- `re.sub(r"\s+", " ", text)`: every maximal whitespace run becomes one
space. -/
def collapseWs (l : List Char) : List Char := l.foldr collapseStep []

/-- Remove trailing whitespace. -/
def stripTrailWs : List Char → List Char
  | [] => []
  | c :: rest =>
      let r := stripTrailWs rest
      if r.isEmpty && isPySpace c then [] else c :: r

/-- Python `str.strip()`: remove leading and trailing whitespace. -/
def stripWs (l : List Char) : List Char := stripTrailWs (l.dropWhile isPySpace)

/-- `TextCleaner.clean`: remove null bytes, then email-like, then
phone-number-like, then URL-like patterns, then collapse whitespace runs to
single spaces and trim. -/
def clean (l : List Char) : List Char :=
  stripWs (collapseWs (urlSub (phoneSub (emailSub
    (l.filter fun ch => ch ≠ '\x00')))))

/-! ## Scanner lemmas for claim C7 -/

theorem subAll_mem (m : Bool → List Char → Option Nat) :
    ∀ (fuel : Nat) (w : Bool) (l : List Char) (ch : Char),
    ch ∈ subAll m fuel w l → ch ∈ l := by
  intro fuel
  induction fuel with
  | zero => intro w l ch h; exact h
  | succ fuel ih =>
      intro w l ch h
      match l with
      | [] => simp [subAll] at h
      | c :: rest =>
          cases hm : m w (c :: rest) with
          | none =>
              simp only [subAll, hm] at h
              rcases List.mem_cons.mp h with rfl | h
              · exact List.mem_cons_self _ _
              · exact List.mem_cons_of_mem _ (ih _ _ _ h)
          | some n =>
              cases n with
              | zero =>
                  simp only [subAll, hm] at h
                  rcases List.mem_cons.mp h with rfl | h
                  · exact List.mem_cons_self _ _
                  · exact List.mem_cons_of_mem _ (ih _ _ _ h)
              | succ k =>
                  simp only [subAll, hm] at h
                  exact List.mem_of_mem_drop (ih _ _ _ h)

theorem subAll_eq_of_not_anyMatch (m : Bool → List Char → Option Nat) :
    ∀ (fuel : Nat) (w : Bool) (l : List Char),
    anyMatch m w l = false → subAll m fuel w l = l := by
  intro fuel
  induction fuel with
  | zero => intro w l _; rfl
  | succ fuel ih =>
      intro w l h
      match l with
      | [] => rfl
      | c :: rest =>
          rw [anyMatch] at h
          rcases Bool.or_eq_false_iff.mp h with ⟨h1, h2⟩
          have hm : m w (c :: rest) = none := Option.not_isSome_iff_eq_none.mp (by simp [h1])
          simp only [subAll, hm]
          rw [ih _ _ h2]

/-! ## Whitespace normal-form lemmas for claim C7 -/

/-- No two adjacent space characters. -/
def noAdjSpaces : List Char → Prop
  | [] => True
  | [_] => True
  | a :: b :: rest => ¬(a = ' ' ∧ b = ' ') ∧ noAdjSpaces (b :: rest)

theorem noAdjSpaces_tail (c : Char) (l : List Char) (h : noAdjSpaces (c :: l)) :
    noAdjSpaces l := by
  match l with
  | [] => trivial
  | b :: rest => exact h.2

theorem noAdjSpaces_cons (c : Char) (l : List Char) (h : noAdjSpaces l)
    (hc : c = ' ' → l.head? ≠ some ' ') : noAdjSpaces (c :: l) := by
  match l with
  | [] => trivial
  | b :: rest =>
      refine ⟨fun ⟨h1, h2⟩ => hc h1 (by rw [h2]; rfl), h⟩

theorem noAdjSpaces_head (c : Char) (l : List Char) (h : noAdjSpaces (c :: l))
    (hc : c = ' ') : l.head? ≠ some ' ' := by
  match l with
  | [] => simp
  | b :: rest =>
      intro hb
      simp only [List.head?_cons, Option.some.injEq] at hb
      exact h.1 ⟨hc, hb⟩

theorem mem_collapseWs (l : List Char) (ch : Char) (h : ch ∈ collapseWs l) :
    (ch ∈ l ∧ isPySpace ch = false) ∨ ch = ' ' := by
  induction l with
  | nil => simp [collapseWs] at h
  | cons c rest ih =>
      rw [collapseWs, List.foldr_cons] at h
      rw [collapseStep] at h
      by_cases hc : isPySpace c = true
      · rw [if_pos hc] at h
        by_cases hh : (rest.foldr collapseStep []).head? = some ' '
        · rw [if_pos hh] at h
          rcases ih h with ⟨h1, h2⟩ | h1
          · exact Or.inl ⟨List.mem_cons_of_mem _ h1, h2⟩
          · exact Or.inr h1
        · rw [if_neg hh] at h
          rcases List.mem_cons.mp h with rfl | h
          · exact Or.inr rfl
          · rcases ih h with ⟨h1, h2⟩ | h1
            · exact Or.inl ⟨List.mem_cons_of_mem _ h1, h2⟩
            · exact Or.inr h1
      · rw [if_neg hc] at h
        rcases List.mem_cons.mp h with rfl | h
        · exact Or.inl ⟨List.mem_cons_self _ _, Bool.eq_false_iff.mpr hc⟩
        · rcases ih h with ⟨h1, h2⟩ | h1
          · exact Or.inl ⟨List.mem_cons_of_mem _ h1, h2⟩
          · exact Or.inr h1

theorem noAdjSpaces_collapseWs (l : List Char) : noAdjSpaces (collapseWs l) := by
  induction l with
  | nil => trivial
  | cons c rest ih =>
      rw [collapseWs, List.foldr_cons, collapseStep]
      by_cases hc : isPySpace c = true
      · rw [if_pos hc]
        by_cases hh : (rest.foldr collapseStep []).head? = some ' '
        · rw [if_pos hh]; exact ih
        · rw [if_neg hh]
          exact noAdjSpaces_cons _ _ ih (fun _ => hh)
      · rw [if_neg hc]
        refine noAdjSpaces_cons _ _ ih (fun hsp => ?_)
        subst hsp
        exact absurd (by decide : isPySpace ' ' = true) hc

theorem collapseWs_eq_self (l : List Char)
    (hws : ∀ ch ∈ l, isPySpace ch = true → ch = ' ')
    (hadj : noAdjSpaces l) : collapseWs l = l := by
  induction l with
  | nil => rfl
  | cons c rest ih =>
      have hrest : collapseWs rest = rest :=
        ih (fun ch hch => hws ch (List.mem_cons_of_mem _ hch)) (noAdjSpaces_tail c rest hadj)
      rw [collapseWs, List.foldr_cons]
      show collapseStep c (collapseWs rest) = c :: rest
      rw [hrest, collapseStep]
      by_cases hc : isPySpace c = true
      · rw [if_pos hc]
        have hcs : c = ' ' := hws c (List.mem_cons_self _ _) hc
        have hh : rest.head? ≠ some ' ' := noAdjSpaces_head c rest hadj hcs
        rw [if_neg hh, hcs]
      · rw [if_neg hc]

theorem mem_stripTrailWs (l : List Char) (ch : Char) (h : ch ∈ stripTrailWs l) :
    ch ∈ l := by
  induction l with
  | nil => simp [stripTrailWs] at h
  | cons c rest ih =>
      rw [stripTrailWs] at h
      by_cases hc : (stripTrailWs rest).isEmpty && isPySpace c
      · rw [if_pos hc] at h
        simp at h
      · rw [if_neg hc] at h
        rcases List.mem_cons.mp h with rfl | h
        · exact List.mem_cons_self _ _
        · exact List.mem_cons_of_mem _ (ih h)

theorem stripTrailWs_head? (l : List Char) :
    stripTrailWs l = [] ∨ (stripTrailWs l).head? = l.head? := by
  match l with
  | [] => exact Or.inl rfl
  | c :: rest =>
      rw [stripTrailWs]
      by_cases hc : (stripTrailWs rest).isEmpty && isPySpace c
      · rw [if_pos hc]; exact Or.inl rfl
      · rw [if_neg hc]; exact Or.inr rfl

theorem noAdjSpaces_stripTrailWs (l : List Char) (h : noAdjSpaces l) :
    noAdjSpaces (stripTrailWs l) := by
  induction l with
  | nil => trivial
  | cons c rest ih =>
      rw [stripTrailWs]
      by_cases hc : (stripTrailWs rest).isEmpty && isPySpace c
      · rw [if_pos hc]; trivial
      · rw [if_neg hc]
        refine noAdjSpaces_cons _ _ (ih (noAdjSpaces_tail c rest h)) (fun hcs hh => ?_)
        rcases stripTrailWs_head? rest with h0 | h0
        · rw [h0] at hh; simp at hh
        · rw [h0] at hh
          exact noAdjSpaces_head c rest h hcs hh

theorem stripTrailWs_getLast? (l : List Char) (ch : Char)
    (h : (stripTrailWs l).getLast? = some ch) : isPySpace ch = false := by
  induction l with
  | nil => simp [stripTrailWs] at h
  | cons c rest ih =>
      rw [stripTrailWs] at h
      by_cases hc : (stripTrailWs rest).isEmpty && isPySpace c
      · rw [if_pos hc] at h; simp at h
      · rw [if_neg hc] at h
        cases hr : stripTrailWs rest with
        | nil =>
            rw [hr] at h hc
            simp only [List.getLast?_singleton, Option.some.injEq] at h
            subst h
            simpa using hc
        | cons b bs =>
            rw [hr] at h
            rw [List.getLast?_cons_cons] at h
            exact ih (hr ▸ h)

theorem stripTrailWs_eq_self (l : List Char)
    (h : ∀ ch, l.getLast? = some ch → isPySpace ch = false) :
    stripTrailWs l = l := by
  induction l with
  | nil => rfl
  | cons c rest ih =>
      rw [stripTrailWs]
      cases hr : rest with
      | nil =>
          subst hr
          have hc := h c (by simp)
          simp [stripTrailWs, hc]
      | cons b bs =>
          subst hr
          have hrest : stripTrailWs (b :: bs) = b :: bs :=
            ih fun ch hch => h ch (by rw [List.getLast?_cons_cons]; exact hch)
          rw [hrest]
          simp

theorem dropWhile_noAdjSpaces (l : List Char) (h : noAdjSpaces l) :
    noAdjSpaces (l.dropWhile isPySpace) := by
  induction l with
  | nil => trivial
  | cons c rest ih =>
      rw [List.dropWhile_cons]
      by_cases hc : isPySpace c = true
      · rw [if_pos hc]
        exact ih (noAdjSpaces_tail c rest h)
      · rw [if_neg hc]
        exact h

theorem dropWhile_head?_not (l : List Char) (ch : Char)
    (h : (l.dropWhile isPySpace).head? = some ch) : isPySpace ch = false := by
  induction l with
  | nil => simp at h
  | cons c rest ih =>
      rw [List.dropWhile_cons] at h
      by_cases hc : isPySpace c = true
      · rw [if_pos hc] at h
        exact ih h
      · rw [if_neg hc] at h
        simp only [List.head?_cons, Option.some.injEq] at h
        subst h
        exact Bool.eq_false_iff.mpr hc

theorem mem_dropWhileWs (l : List Char) (ch : Char)
    (h : ch ∈ l.dropWhile isPySpace) : ch ∈ l := by
  induction l with
  | nil => simp at h
  | cons c rest ih =>
      rw [List.dropWhile_cons] at h
      by_cases hc : isPySpace c = true
      · rw [if_pos hc] at h
        exact List.mem_cons_of_mem _ (ih h)
      · rw [if_neg hc] at h
        exact h

theorem mem_stripWs (l : List Char) (ch : Char) (h : ch ∈ stripWs l) : ch ∈ l := by
  rw [stripWs] at h
  exact mem_dropWhileWs _ _ (mem_stripTrailWs _ _ h)

theorem stripWs_eq_self (l : List Char)
    (hhead : ∀ ch, l.head? = some ch → isPySpace ch = false)
    (hlast : ∀ ch, l.getLast? = some ch → isPySpace ch = false) :
    stripWs l = l := by
  rw [stripWs]
  have hdrop : l.dropWhile isPySpace = l := by
    cases l with
    | nil => rfl
    | cons c rest =>
        have hc := hhead c (by simp)
        simp [List.dropWhile_cons, hc]
  rw [hdrop]
  exact stripTrailWs_eq_self l hlast

/-- C7 (counterexample): cleaning is not idempotent. Removing the URL from
`111-222-3333http://x` exposes a phone-number match (the trailing word
boundary that previously failed now succeeds at the end of the string), so
the second clean removes it: `clean(x) = "111-222-3333"` but
`clean(clean(x)) = ""`. -/
theorem clean_not_idempotent :
    clean (clean ("111-222-3333http://x".toList)) ≠ clean ("111-222-3333http://x".toList) ∧
    clean ("111-222-3333http://x".toList) = "111-222-3333".toList ∧
    clean (clean ("111-222-3333http://x".toList)) = [] :=
  ⟨by decide, by decide, by decide⟩

/-- C7 (amended): `clean(clean(x)) = clean(x)` for every input whose cleaned
form contains no residual email-like, phone-number-like, or URL-like match;
in general a removal may expose a new pattern occurrence (see
`clean_not_idempotent`), and then a second application removes more. -/
theorem clean_idempotent_of_clean (x : List Char)
    (he : hasEmail (clean x) = false) (hp : hasPhone (clean x) = false)
    (hu : hasURL (clean x) = false) :
    clean (clean x) = clean x := by
  have hmemz : ∀ ch ∈ clean x, isPySpace ch = false ∧ ch ≠ '\x00' ∨ ch = ' ' := by
    intro ch hch
    rw [clean] at hch
    have h1 := mem_stripWs _ _ hch
    rcases mem_collapseWs _ _ h1 with ⟨h2, h3⟩ | h2
    · have h4 := subAll_mem _ _ _ _ _ h2
      have h5 := subAll_mem _ _ _ _ _ h4
      have h6 := subAll_mem _ _ _ _ _ h5
      have h7 := List.mem_filter.mp h6
      refine Or.inl ⟨h3, ?_⟩
      simpa using h7.2
    · exact Or.inr h2
  have hsimple : ∀ ch ∈ clean x, isPySpace ch = true → ch = ' ' := by
    intro ch hch hws
    rcases hmemz ch hch with ⟨h1, _⟩ | h1
    · rw [hws] at h1; cases h1
    · exact h1
  have hnull : (clean x).filter (fun ch => ch ≠ '\x00') = clean x := by
    apply List.filter_eq_self.mpr
    intro ch hch
    rcases hmemz ch hch with ⟨_, h1⟩ | h1
    · simpa using h1
    · subst h1; decide
  have hadj : noAdjSpaces (clean x) := by
    rw [clean, stripWs]
    exact noAdjSpaces_stripTrailWs _
      (dropWhile_noAdjSpaces _ (noAdjSpaces_collapseWs _))
  have hhead : ∀ ch, (clean x).head? = some ch → isPySpace ch = false := by
    intro ch hch
    rw [clean, stripWs] at hch
    rcases stripTrailWs_head? ((collapseWs (urlSub (phoneSub (emailSub
        (x.filter fun ch => ch ≠ '\x00'))))).dropWhile isPySpace) with h0 | h0
    · rw [h0] at hch; cases hch
    · rw [h0] at hch
      exact dropWhile_head?_not _ _ hch
  have hlast : ∀ ch, (clean x).getLast? = some ch → isPySpace ch = false := by
    intro ch hch
    rw [clean, stripWs] at hch
    exact stripTrailWs_getLast? _ _ hch
  show stripWs (collapseWs (urlSub (phoneSub (emailSub
      ((clean x).filter fun ch => ch ≠ '\x00'))))) = clean x
  rw [hnull]
  rw [show emailSub (clean x) = clean x from subAll_eq_of_not_anyMatch _ _ _ _ he]
  rw [show phoneSub (clean x) = clean x from subAll_eq_of_not_anyMatch _ _ _ _ hp]
  rw [show urlSub (clean x) = clean x from subAll_eq_of_not_anyMatch _ _ _ _ hu]
  rw [collapseWs_eq_self _ hsimple hadj]
  exact stripWs_eq_self _ hhead hlast

/-- Witness for `clean_idempotent_of_clean`: ordinary text with no
pattern-like residue. -/
theorem clean_idempotent_witness :
    hasEmail (clean ("hello   world".toList)) = false ∧
    hasPhone (clean ("hello   world".toList)) = false ∧
    hasURL (clean ("hello   world".toList)) = false ∧
    clean (clean ("hello   world".toList)) = clean ("hello   world".toList) :=
  ⟨by decide, by decide, by decide,
    clean_idempotent_of_clean ("hello   world".toList) (by decide) (by decide) (by decide)⟩

end RAGSpec
